import Mathlib

/-!
Verification development for the `Heap` class of `src/heap.py` (HeapVisualizer).

The heap stores arbitrary Python values compared through `_prefer`, which
projects each element through the optional `key` function, normalizes the
result (NaN policy), and compares with `<` in min mode or `>` in max mode.
We embed the storage as `List Int` and the (already normalized) key
projection as a total function `k : Int → Int`; a configuration `Cfg`
carries the order mode and the key projection.  Machine integers do not
occur (Python integers are unbounded), so `Int` is exact.

Fallible key computation (a raising `key_fn`, or NaN under the `raise`
policy) is embedded separately with `CfgE` whose key returns `Option Int`
(`none` models an exception).  Observer notifications are embedded by the
sink-threaded state `HState` (for reentrancy and exception-swallowing
claims) and by the event-traced sift functions (for the instrumentation
claim).  NaN normalization itself (`_normalize_key`) is embedded over a
small datatype `PyKey` with a distinguished NaN value, since the only
float operation the function performs is the `isnan` test.

All recursion is structural over an explicit fuel argument (each wrapper
supplies fuel that provably suffices), so every definition evaluates by
kernel reduction.
-/

/-- Configuration of a heap: `min_heap` flag and the normalized key
projection (`_k` composed of `key` and `_normalize_key`), as used by
`_prefer` (src/heap.py lines 582-638). -/
structure Cfg where
  min_heap : Bool
  k : Int → Int

/-- Embedding of `_prefer` (src/heap.py lines 626-638): `ka < kb` in min
mode, `ka > kb` in max mode. -/
def prefer (c : Cfg) (a b : Int) : Bool :=
  if c.min_heap then decide (c.k a < c.k b) else decide (c.k b < c.k a)

/-- The Python parallel assignment `data[i], data[j] = data[j], data[i]`
used by `_swap` (src/heap.py lines 681-690). -/
def swapL (l : List Int) (i j : Nat) : List Int :=
  (l.set i (l.getD j 0)).set j (l.getD i 0)

/-- Embedding of `is_valid_heap` (src/heap.py lines 694-709): every parent
index up to `(n-2)/2` is checked against both children with `_prefer`. -/
def is_valid_heap (c : Cfg) (l : List Int) : Bool :=
  (List.range ((l.length - 2) / 2 + 1)).all fun i =>
    !((decide (2 * i + 1 < l.length) && prefer c (l.getD (2 * i + 1) 0) (l.getD i 0)) ||
      (decide (2 * i + 2 < l.length) && prefer c (l.getD (2 * i + 2) 0) (l.getD i 0)))

/-- The heap ordering condition for every edge whose parent index is at
least `s`: no child is preferred over its parent.  `HeapFrom c l 0` is the
full heap invariant. -/
def HeapFrom (c : Cfg) (l : List Int) (s : Nat) : Prop :=
  ∀ ch, 0 < ch → ch < l.length → s ≤ (ch - 1) / 2 →
    prefer c (l.getD ch 0) (l.getD ((ch - 1) / 2) 0) = false

/-- Loop invariant of `_heapify_down`: in the region of parents at least
`s` every edge is ordered except possibly the edges out of the current
`hole`, and once the hole has moved its children already fit below the
hole's parent. -/
structure SiftState (c : Cfg) (l : List Int) (s hole : Nat) : Prop where
  lower : s ≤ hole
  heap : ∀ ch, 0 < ch → ch < l.length → s ≤ (ch - 1) / 2 → (ch - 1) / 2 ≠ hole →
    prefer c (l.getD ch 0) (l.getD ((ch - 1) / 2) 0) = false
  upper : s < hole → ∀ ch, 0 < ch → ch < l.length → (ch - 1) / 2 = hole →
    prefer c (l.getD ch 0) (l.getD ((hole - 1) / 2) 0) = false

/-- Loop body of `_heapify_up` (src/heap.py lines 642-655), fuel-indexed:
while `i > 0` and the element is preferred over its parent, swap and
continue from the parent. -/
def huGo (c : Cfg) : Nat → List Int → Nat → List Int
  | 0, l, _ => l
  | f + 1, l, i =>
    if 0 < i ∧ prefer c (l.getD i 0) (l.getD ((i - 1) / 2) 0) = true then
      huGo c f (swapL l i ((i - 1) / 2)) ((i - 1) / 2)
    else l

/-- `_heapify_up(index)`: the walk shortens the index at every step, so
`index + 1` units of fuel always suffice. -/
def heapifyUp (c : Cfg) (l : List Int) (i : Nat) : List Int :=
  huGo c (i + 1) l i

/-- The `best` index computed by one iteration of `_heapify_down`
(src/heap.py lines 666-673): start from `index`, take the left child if
it is in range and preferred, then the right child if it is in range and
preferred over the current best. -/
def bestChild (c : Cfg) (l : List Int) (i : Nat) : Nat :=
  let b1 := if 2 * i + 1 < l.length ∧ prefer c (l.getD (2 * i + 1) 0) (l.getD i 0) = true then
    2 * i + 1 else i
  if 2 * i + 2 < l.length ∧ prefer c (l.getD (2 * i + 2) 0) (l.getD b1 0) = true then
    2 * i + 2 else b1

/-- Loop body of `_heapify_down` (src/heap.py lines 657-679), fuel-indexed:
pick the preferred child (left examined before right), swap and continue
from it, or stop. -/
def hdGo (c : Cfg) : Nat → List Int → Nat → List Int
  | 0, l, _ => l
  | f + 1, l, i =>
    let b2 := bestChild c l i
    if b2 = i then l else hdGo c f (swapL l i b2) b2

/-- `_heapify_down(index)`: the index strictly grows at every step, so
`length` units of fuel always suffice. -/
def heapifyDown (c : Cfg) (l : List Int) (i : Nat) : List Int :=
  hdGo c l.length l i

/-- The loop of `heapify` (src/heap.py lines 278-289): sift down the
internal nodes `i, i-1, ..., 0`. -/
def buildFrom (c : Cfg) : Nat → List Int → List Int
  | 0, l => heapifyDown c l 0
  | i + 1, l => buildFrom c i (heapifyDown c l (i + 1))

/-- `heapify()`: sift down from the last parent index `(n-2)/2` to the
root.  For `n ≤ 1` this sifts index 0, which does nothing, matching the
empty Python loop. -/
def heapifyAll (c : Cfg) (l : List Int) : List Int :=
  buildFrom c ((l.length - 2) / 2) l

/-- Storage effect of `push(value)` (src/heap.py lines 61-109): append,
then sift up from the new index (no sift needed when the heap was empty). -/
def push (c : Cfg) (l : List Int) (v : Int) : List Int :=
  if l.length = 0 then l ++ [v] else heapifyUp c (l ++ [v]) l.length

/-- Storage effect of `pop()` (src/heap.py lines 126-150) on a non-empty
heap: remove the last element, move it to the root if elements remain,
and sift down from the root. -/
def popState (c : Cfg) (l : List Int) : List Int :=
  if l.length ≤ 1 then []
  else heapifyDown c ((l.dropLast).set 0 (l.getD (l.length - 1) 0)) 0

/-- Full `pop()` result: the returned value (`none` models returning the
`None` default on an empty heap) together with the new storage. -/
def popF (c : Cfg) (l : List Int) : Option Int × List Int :=
  if l = [] then (none, l) else (some (l.getD 0 0), popState c l)

/-- Loop of repeatedly calling `pop()` until the heap is empty, collecting
the returned roots; `length` units of fuel suffice since every `pop`
removes exactly one element. -/
def popAllGo (c : Cfg) : Nat → List Int → List Int
  | 0, _ => []
  | f + 1, l => if l = [] then [] else l.getD 0 0 :: popAllGo c f (popState c l)

/-- Pop every element of the heap in order. -/
def popAll (c : Cfg) (l : List Int) : List Int :=
  popAllGo c l.length l

/-- Embedding of `pushpop(value)` (src/heap.py lines 738-761): if the heap
is empty or `value` is preferred over the root, return `value` and leave
the storage alone; otherwise replace the root by `value`, sift down, and
return the old root. -/
def pushpop (c : Cfg) (l : List Int) (v : Int) : Int × List Int :=
  if l = [] ∨ prefer c v (l.getD 0 0) = true then (v, l)
  else (l.getD 0 0, heapifyDown c (l.set 0 v) 0)

/-- Embedding of `_remove_at(index)` (src/heap.py lines 354-431).  Note
the sift direction test `self.data[index] < self.data[parent]` compares
the raw values with `<` (here the order of `Int`), not with `_prefer`. -/
def removeAt (c : Cfg) (l : List Int) (index : Nat) : List Int :=
  let n := l.length
  if index < n then
    let last := l.getD (n - 1) 0
    let d := l.dropLast
    if index = n - 1 then d
    else
      let d2 := d.set index last
      let needs_up :=
        if 0 < index then decide (d2.getD index 0 < d2.getD ((index - 1) / 2) 0) else false
      if needs_up then heapifyUp c d2 index else heapifyDown c d2 index
  else l

/-- Scan loop of `remove(value, all)` (src/heap.py lines 291-352): on a
match remove in place and re-check the same index (or stop when `all` is
false), otherwise advance.  Every step either removes an element or
advances the index, so `length` units of fuel suffice. -/
def removeGo (c : Cfg) (value : Int) (all : Bool) : Nat → Nat → List Int → Nat → List Int × Nat
  | 0, _, l, removed => (l, removed)
  | f + 1, i, l, removed =>
    if i < l.length then
      if l.getD i 0 = value then
        let l2 := removeAt c l i
        if all then removeGo c value all f i l2 (removed + 1) else (l2, removed + 1)
      else removeGo c value all f (i + 1) l removed
    else (l, removed)

/-- `remove(value, all)`: resulting storage and removed count. -/
def remove (c : Cfg) (l : List Int) (value : Int) (all : Bool) : List Int × Nat :=
  removeGo c value all l.length 0 l 0

/-- The `nan_policy` string constant `raise`. -/
def raiseStr : String := "raise"

/-- The `nan_policy` string constant `min`. -/
def minStr : String := "min"

/-- The `nan_policy` string constant `max`. -/
def maxStr : String := "max"

/-- An arbitrary unrecognized `nan_policy` string, used as a witness. -/
def weirdStr : String := "weird"

/-- A heap object as `merge` sees it: comparison configuration plus
storage plus the `_mutating` guard flag.  The Python `key` attribute is
compared by object identity in `merge`, so it is represented by an
identifier `keyId`; an environment `Nat → Int → Int` gives each
identifier its meaning. -/
structure HeapObj where
  min_heap : Bool
  keyId : Nat
  nan_policy : String
  data : List Int
  mutating : Bool

/-- The comparison configuration of a heap object under a key
environment. -/
def cfgOf (env : Nat → Int → Int) (h : HeapObj) : Cfg :=
  ⟨h.min_heap, env h.keyId⟩

/-- Errors surfaced by guarded operations: `ValueError` for incompatible
merges, `RuntimeError` from the re-entrancy check of `_mutation`. -/
inductive MErr where
  | incompatible
  | reentrant
deriving DecidableEq

/-- Embedding of `heapify()` (src/heap.py lines 278-289) as a guarded
operation: `_mutation` first rejects a re-entrant call, otherwise the
storage is rebuilt in place. -/
def heapifyOp (c : Cfg) (h : HeapObj) : Except MErr HeapObj :=
  if h.mutating then .error .reentrant
  else .ok { h with data := heapifyAll c h.data }

/-- Embedding of `merge(other)` (src/heap.py lines 787-809), including the
`_mutation` guard semantics: the configuration check, the empty no-op,
then — under the held guard — the in-place extension of `data` followed
by the call to `heapify()`, whose own `_mutation` guard is checked
against the already-set flag.  If that inner call raises, the exception
propagates and only the guard flag is restored (there is no rollback in
`merge`). -/
def mergeOp (env : Nat → Int → Int) (self other : HeapObj) : Except MErr Unit × HeapObj :=
  if self.min_heap ≠ other.min_heap ∨ self.keyId ≠ other.keyId ∨
      self.nan_policy ≠ other.nan_policy then
    (.error .incompatible, self)
  else if other.data = [] then (.ok (), self)
  else if self.mutating then (.error .reentrant, self)
  else
    let g := { self with mutating := true, data := self.data ++ other.data }
    match heapifyOp (cfgOf env g) g with
    | .ok g2 => (.ok (), { g2 with mutating := false })
    | .error e => (.error e, { g with mutating := false })

/-- Events the sift primitives can send to the observer.  The `swap`
payload carries the indices and the two values after the exchange, as
`_swap` does; the `compare` constructor is the event name the
specification reserves for comparisons. -/
inductive Ev where
  | swap (i j : Nat) (ai aj : Int)
  | compare (i j : Nat)

/-- Whether an event is a `swap` notification. -/
def isSwapEv : Ev → Bool
  | .swap _ _ _ _ => true
  | _ => false

/-- Whether an event is a `compare` notification. -/
def isCompareEv : Ev → Bool
  | .compare _ _ => true
  | _ => false

/-- Result of an instrumented sift: final storage, the sequence of events
sent to the observer, and the number of `_prefer` calls evaluated. -/
structure SiftT where
  data : List Int
  evs : List Ev
  cmps : Nat

/-- Instrumented `_heapify_up` (src/heap.py lines 642-655): one `_prefer`
evaluation per iteration with `i > 0`, and one `swap` notification (from
`_swap`, lines 681-690) per exchange.  No other notification occurs. -/
def huGoT (c : Cfg) : Nat → List Int → Nat → SiftT
  | 0, l, _ => ⟨l, [], 0⟩
  | f + 1, l, i =>
    if 0 < i then
      if prefer c (l.getD i 0) (l.getD ((i - 1) / 2) 0) = true then
        let l2 := swapL l i ((i - 1) / 2)
        let r := huGoT c f l2 ((i - 1) / 2)
        ⟨r.data, Ev.swap i ((i - 1) / 2) (l2.getD i 0) (l2.getD ((i - 1) / 2) 0) :: r.evs,
          r.cmps + 1⟩
      else ⟨l, [], 1⟩
    else ⟨l, [], 0⟩

/-- Instrumented `_heapify_up(index)`. -/
def heapifyUpT (c : Cfg) (l : List Int) (i : Nat) : SiftT :=
  huGoT c (i + 1) l i

/-- Instrumented `_heapify_down` (src/heap.py lines 657-679): one
`_prefer` evaluation per existing child examined, one `swap` notification
per exchange, nothing else. -/
def hdGoT (c : Cfg) : Nat → List Int → Nat → SiftT
  | 0, l, _ => ⟨l, [], 0⟩
  | f + 1, l, i =>
    let n := l.length
    let cl : Nat := (if 2 * i + 1 < n then 1 else 0) + (if 2 * i + 2 < n then 1 else 0)
    let b2 := bestChild c l i
    if b2 = i then ⟨l, [], cl⟩
    else
      let l2 := swapL l i b2
      let r := hdGoT c f l2 b2
      ⟨r.data, Ev.swap i b2 (l2.getD i 0) (l2.getD b2 0) :: r.evs, r.cmps + cl⟩

/-- Instrumented `_heapify_down(index)`. -/
def heapifyDownT (c : Cfg) (l : List Int) (i : Nat) : SiftT :=
  hdGoT c l.length l i

/-- Configuration with a fallible key computation: `k v = none` models
`_k` raising (a raising `key_fn`, or a NaN key under the `raise`
policy). -/
structure CfgE where
  min_heap : Bool
  k : Int → Option Int

/-- Fallible `_prefer`: evaluates `_k` of the first then the second
argument, propagating failure. -/
def preferE (c : CfgE) (a b : Int) : Option Bool :=
  match c.k a with
  | none => none
  | some ka =>
    match c.k b with
    | none => none
    | some kb => some (if c.min_heap then decide (ka < kb) else decide (kb < ka))

/-- Fallible `_heapify_up` loop. -/
def huGoE (c : CfgE) : Nat → List Int → Nat → Option (List Int)
  | 0, l, _ => some l
  | f + 1, l, i =>
    if 0 < i then
      match preferE c (l.getD i 0) (l.getD ((i - 1) / 2) 0) with
      | none => none
      | some true => huGoE c f (swapL l i ((i - 1) / 2)) ((i - 1) / 2)
      | some false => some l
    else some l

/-- Fallible `_heapify_down` loop, with Python's short-circuit evaluation:
`_prefer` on a child is evaluated only when that child index is in range.
The branches enumerate the values of `best` after the two comparisons:
when the left child won the first comparison `best` is never `index`, so
the loop always continues; when both comparisons lost, `best = index` and
the loop stops. -/
def hdGoE (c : CfgE) : Nat → List Int → Nat → Option (List Int)
  | 0, l, _ => some l
  | f + 1, l, i =>
    if 2 * i + 1 < l.length then
      match preferE c (l.getD (2 * i + 1) 0) (l.getD i 0) with
      | none => none
      | some true =>
        if 2 * i + 2 < l.length then
          match preferE c (l.getD (2 * i + 2) 0) (l.getD (2 * i + 1) 0) with
          | none => none
          | some true => hdGoE c f (swapL l i (2 * i + 2)) (2 * i + 2)
          | some false => hdGoE c f (swapL l i (2 * i + 1)) (2 * i + 1)
        else hdGoE c f (swapL l i (2 * i + 1)) (2 * i + 1)
      | some false =>
        if 2 * i + 2 < l.length then
          match preferE c (l.getD (2 * i + 2) 0) (l.getD i 0) with
          | none => none
          | some true => hdGoE c f (swapL l i (2 * i + 2)) (2 * i + 2)
          | some false => some l
        else some l
    else some l

/-- Fallible `heapify()` loop over the internal nodes `i, ..., 0`. -/
def buildFromE (c : CfgE) : Nat → List Int → Option (List Int)
  | 0, l => hdGoE c l.length l 0
  | i + 1, l =>
    match hdGoE c l.length l (i + 1) with
    | none => none
    | some l2 => buildFromE c i l2

/-- Fallible `heapify()`. -/
def heapifyAllE (c : CfgE) (l : List Int) : Option (List Int) :=
  buildFromE c ((l.length - 2) / 2) l

/-- Fallible `push(value)` (src/heap.py lines 61-109): the key of the new
value is validated before any mutation; on a failure during the sift-up
the storage is rolled back to the pre-push snapshot.  The first component
is `none` when the call raises; the second is the storage afterwards. -/
def pushE (c : CfgE) (st : List Int) (v : Int) : Option Unit × List Int :=
  match c.k v with
  | none => (none, st)
  | some _ =>
    let l2 := st ++ [v]
    if st.length = 0 then (some (), l2)
    else
      match huGoE c (st.length + 1) l2 st.length with
      | some l3 => (some (), l3)
      | none => (none, st)

/-- Embedding of `extend(items)` (src/heap.py lines 206-250): no-op on an
empty batch; a single item is delegated to `push`; a larger batch is
appended wholesale and `heapify()` is called, with the storage restored
from the snapshot if that fails.  The first component is `none` when the
call raises. -/
def extendE (c : CfgE) (st : List Int) (items : List Int) : Option Unit × List Int :=
  if items = [] then (some (), st)
  else if items.length = 1 then pushE c st (items.getD 0 0)
  else
    match heapifyAllE c (st ++ items) with
    | some l => (some (), l)
    | none => (none, st)

/-- Names of the notifications the guarded operations send (src/heap.py
section NOTIFICATIONS). -/
inductive EvName where
  | insert_start
  | insert
  | push_done
  | swap
  | pop_empty
  | pop_start
  | pop_root
  | move
  | pop_done

/-- Outcome of the inner heap call a test sink performs, recorded in the
sink's private log. -/
inductive InnerRes where
  | ok
  | err
deriving DecidableEq

/-- Heap state threaded through an operation together with its observer:
the storage, the `_mutating` guard flag, and a log private to the sink
(modelling what the outside world observes of the sink's own actions). -/
structure HState where
  data : List Int
  mutating : Bool
  log : List InnerRes

/-- An observer callback: receives the event and the current state, and
returns the state after its own actions together with a flag telling
whether it raised. -/
def Sink : Type := EvName → HState → HState × Bool

/-- Embedding of `_notify` (src/heap.py lines 549-578): the observer is
invoked synchronously and any exception it raises is caught and
swallowed, so only its state effect remains. -/
def notifyS (sink : Sink) (ev : EvName) (g : HState) : HState :=
  (sink ev g).1

/-- The observer that does nothing. -/
def trivialSink : Sink := fun _ g => (g, false)

/-- The same observer with its exceptions removed: identical state
effect, but it always returns normally. -/
def normalizeSink (s : Sink) : Sink := fun ev g => ((s ev g).1, false)

/-- Sink-threaded `_heapify_up` loop: each exchange notifies `swap`. -/
def huGoS (c : Cfg) (sink : Sink) : Nat → HState → Nat → HState
  | 0, g, _ => g
  | f + 1, g, i =>
    if 0 < i ∧ prefer c (g.data.getD i 0) (g.data.getD ((i - 1) / 2) 0) = true then
      let g2 := notifyS sink .swap { g with data := swapL g.data i ((i - 1) / 2) }
      huGoS c sink f g2 ((i - 1) / 2)
    else g

/-- Sink-threaded `_heapify_down` loop: each exchange notifies `swap`. -/
def hdGoS (c : Cfg) (sink : Sink) : Nat → HState → Nat → HState
  | 0, g, _ => g
  | f + 1, g, i =>
    let b2 := bestChild c g.data i
    if b2 = i then g
    else hdGoS c sink f (notifyS sink .swap { g with data := swapL g.data i b2 }) b2

/-- Sink-threaded `push(value)` (src/heap.py lines 61-109) with total
keys: the `_mutation` guard rejects a re-entrant call before any change;
otherwise the flag is set, `insert_start` and `insert` are notified
around the append, the sift-up runs (notifying `swap` per exchange),
`push_done` is notified, and the guard is released.  The first component
is `none` exactly when the guard rejected the call. -/
def pushS (c : Cfg) (sink : Sink) (st : HState) (v : Int) : Option Unit × HState :=
  if st.mutating then (none, st)
  else
    let g := { st with mutating := true }
    let nb := g.data.length
    let g1 := notifyS sink .insert_start g
    let g2 := { g1 with data := g1.data ++ [v] }
    let g3 := notifyS sink .insert g2
    if nb = 0 then
      let g4 := notifyS sink .push_done g3
      (some (), { g4 with mutating := false })
    else
      let g5 := huGoS c sink (nb + 1) g3 nb
      let g6 := notifyS sink .push_done g5
      (some (), { g6 with mutating := false })

/-- Sink-threaded `pop()` (src/heap.py lines 111-161) with total keys:
guard, `pop_empty` on an empty heap, otherwise `pop_start`, `pop_root`,
removal of the last element, `move` and sift-down when elements remain,
then `pop_done`. -/
def popS (c : Cfg) (sink : Sink) (st : HState) : Option (Option Int) × HState :=
  if st.mutating then (none, st)
  else
    let g := { st with mutating := true }
    if g.data = [] then
      let g1 := notifyS sink .pop_empty g
      (some none, { g1 with mutating := false })
    else
      let g1 := notifyS sink .pop_start g
      let root := g1.data.getD 0 0
      let g2 := notifyS sink .pop_root g1
      let last := g2.data.getD (g2.data.length - 1) 0
      let d1 := g2.data.dropLast
      if d1 = [] then
        let g3 := { g2 with data := d1 }
        let g4 := notifyS sink .pop_done g3
        (some (some root), { g4 with mutating := false })
      else
        let g3 := { g2 with data := d1.set 0 last }
        let g4 := notifyS sink .move g3
        let g5 := hdGoS c sink g4.data.length g4 0
        let g6 := notifyS sink .pop_done g5
        (some (some root), { g6 with mutating := false })

/-- The misbehaving observer of the reentrancy scenario: on every event it
calls `push` on the heap it observes, records whether that inner call
raised, and returns normally. -/
def reentrantSink (c : Cfg) (w : Int) : Sink := fun _ g =>
  match pushS c trivialSink g w with
  | (some _, g2) => ({ g2 with log := g2.log ++ [InnerRes.ok] }, false)
  | (none, g2) => ({ g2 with log := g2.log ++ [InnerRes.err] }, false)

/-- Keys as `_normalize_key` (src/heap.py lines 601-624) sees them: the
only float operation performed is the `isnan` test, so a distinguished
NaN value, the two infinities it can produce, and all other values
(`val`) suffice. -/
inductive PyKey where
  | nan
  | ninf
  | pinf
  | val (q : Int)
deriving DecidableEq

/-- Embedding of `_normalize_key` (src/heap.py lines 601-624): a float NaN
raises under the `raise` policy, maps to negative infinity under `min`,
to positive infinity under `max`, and to positive infinity under any
other policy string; every non-NaN value passes through unchanged. -/
def normalize_key (policy : String) (v : PyKey) : Except Unit PyKey :=
  match v with
  | .nan =>
    if policy = raiseStr then .error ()
    else if policy = minStr then .ok .ninf
    else if policy = maxStr then .ok .pinf
    else .ok .pinf
  | x => .ok x

/-- The min-heap configuration with the identity key projection, used for
concrete instances. -/
def cMinId : Cfg := ⟨true, fun x => x⟩

/-- The max-heap configuration with the identity key projection, used for
concrete instances. -/
def cMaxId : Cfg := ⟨false, fun x => x⟩

/-- A fallible key configuration whose key computation raises exactly on
the value `7`, used for concrete instances. -/
def cBad7 : CfgE := ⟨true, fun x => if x = 7 then none else some x⟩

theorem getD_set_self {l : List Int} {i : Nat} (h : i < l.length) (a d : Int) :
    (l.set i a).getD i d = a := by
  simp [List.getD_eq_getElem?_getD, List.getElem?_set_self h]

theorem getD_set_ne {l : List Int} {i j : Nat} (h : i ≠ j) (a d : Int) :
    (l.set i a).getD j d = l.getD j d := by
  simp [List.getD_eq_getElem?_getD, List.getElem?_set_ne h]

theorem swapL_length (l : List Int) (i j : Nat) : (swapL l i j).length = l.length := by
  simp [swapL]

theorem getD_swapL_left {l : List Int} {i j : Nat} (hj : j < l.length) (d : Int) :
    (swapL l i j).getD j d = l.getD i 0 := by
  unfold swapL
  exact getD_set_self (by simpa using hj) _ _

theorem getD_swapL_right {l : List Int} {i j : Nat} (hi : i < l.length) (hij : i ≠ j) (d : Int) :
    (swapL l i j).getD i d = l.getD j 0 := by
  unfold swapL
  rw [getD_set_ne (fun h => hij h.symm), getD_set_self hi]

theorem getD_swapL_other {l : List Int} {i j m : Nat} (h1 : m ≠ i) (h2 : m ≠ j) (d : Int) :
    (swapL l i j).getD m d = l.getD m d := by
  unfold swapL
  rw [getD_set_ne (fun h => h2 h.symm), getD_set_ne (fun h => h1 h.symm)]

theorem cons_set_perm : ∀ (t : List Int) (m : Nat), m < t.length → ∀ a : Int,
    (t.getD m 0 :: t.set m a).Perm (a :: t) := by
  intro t
  induction t with
  | nil => intro m h; simp at h
  | cons b t' ih =>
    intro m h a
    cases m with
    | zero => simpa using List.Perm.swap a b t'
    | succ m =>
      have h' : m < t'.length := by simpa using h
      refine List.Perm.trans (List.Perm.swap b (t'.getD m 0) (t'.set m a)) ?_
      refine List.Perm.trans (List.Perm.cons b (ih m h' a)) ?_
      exact List.Perm.swap a b t'

theorem swapL_perm {l : List Int} {i j : Nat} (hi : i < l.length) (hj : j < l.length)
    (hij : i ≠ j) : (swapL l i j).Perm l := by
  have hb : (l.set i (l.getD j 0)).getD j 0 = l.getD j 0 := getD_set_ne hij _ _
  have p1 : ((l.set i (l.getD j 0)).getD j 0 :: swapL l i j).Perm
      (l.getD i 0 :: l.set i (l.getD j 0)) :=
    cons_set_perm (l.set i (l.getD j 0)) j (by simpa using hj) (l.getD i 0)
  have p2 : (l.getD i 0 :: l.set i (l.getD j 0)).Perm (l.getD j 0 :: l) :=
    cons_set_perm l i hi (l.getD j 0)
  have p3 : (l.getD j 0 :: swapL l i j).Perm (l.getD j 0 :: l) := by
    rw [hb] at p1
    exact p1.trans p2
  exact p3.cons_inv

theorem prefer_irrefl (c : Cfg) (a : Int) : prefer c a a = false := by
  unfold prefer; split <;> simp

theorem prefer_asymm {c : Cfg} {a b : Int} (h : prefer c a b = true) :
    prefer c b a = false := by
  unfold prefer at *
  revert h; split <;> simp <;> omega

theorem notPref_trans {c : Cfg} {a b x : Int} (h1 : prefer c a b = false)
    (h2 : prefer c b x = false) : prefer c a x = false := by
  unfold prefer at *
  revert h1 h2; split <;> simp <;> omega

theorem pref_trans {c : Cfg} {a b x : Int} (h1 : prefer c a b = true)
    (h2 : prefer c b x = true) : prefer c a x = true := by
  unfold prefer at *
  revert h1 h2; split <;> simp <;> omega

theorem pref_notPref {c : Cfg} {a b x : Int} (h1 : prefer c b x = true)
    (h2 : prefer c a x = false) : prefer c a b = false := by
  unfold prefer at *
  revert h1 h2; split <;> simp <;> omega

theorem pref_of_pref_notPref {c : Cfg} {a b x : Int} (h1 : prefer c a b = true)
    (h2 : prefer c x b = false) : prefer c a x = true := by
  unfold prefer at *
  revert h1 h2; split <;> simp <;> omega

theorem bestChild_cases (c : Cfg) (l : List Int) (i : Nat) :
    (bestChild c l i = i ∧
      (2 * i + 1 < l.length → prefer c (l.getD (2 * i + 1) 0) (l.getD i 0) = false) ∧
      (2 * i + 2 < l.length → prefer c (l.getD (2 * i + 2) 0) (l.getD i 0) = false)) ∨
    ((bestChild c l i = 2 * i + 1 ∨ bestChild c l i = 2 * i + 2) ∧
      bestChild c l i < l.length ∧
      prefer c (l.getD (bestChild c l i) 0) (l.getD i 0) = true ∧
      (∀ oc, (oc = 2 * i + 1 ∨ oc = 2 * i + 2) → oc ≠ bestChild c l i → oc < l.length →
        prefer c (l.getD oc 0) (l.getD (bestChild c l i) 0) = false)) := by
  unfold bestChild
  by_cases h1 : 2 * i + 1 < l.length ∧ prefer c (l.getD (2 * i + 1) 0) (l.getD i 0) = true
  · rw [if_pos h1]
    by_cases h2 : 2 * i + 2 < l.length ∧
        prefer c (l.getD (2 * i + 2) 0) (l.getD (2 * i + 1) 0) = true
    · rw [if_pos h2]
      right
      refine ⟨Or.inr rfl, h2.1, pref_trans h2.2 h1.2, ?_⟩
      intro oc hoc hne _
      rcases hoc with rfl | rfl
      · exact prefer_asymm h2.2
      · exact absurd rfl hne
    · rw [if_neg h2]
      right
      refine ⟨Or.inl rfl, h1.1, h1.2, ?_⟩
      intro oc hoc hne hlt
      rcases hoc with rfl | rfl
      · exact absurd rfl hne
      · rcases not_and_or.mp h2 with h | h
        · exact absurd hlt h
        · simpa using h
  · rw [if_neg h1]
    by_cases h2 : 2 * i + 2 < l.length ∧ prefer c (l.getD (2 * i + 2) 0) (l.getD i 0) = true
    · rw [if_pos h2]
      right
      refine ⟨Or.inr rfl, h2.1, h2.2, ?_⟩
      intro oc hoc hne hlt
      rcases hoc with rfl | rfl
      · rcases not_and_or.mp h1 with h | h
        · exact absurd hlt h
        · exact pref_notPref h2.2 (by simpa using h)
      · exact absurd rfl hne
    · rw [if_neg h2]
      left
      refine ⟨rfl, ?_, ?_⟩
      · intro hlt
        rcases not_and_or.mp h1 with h | h
        · exact absurd hlt h
        · simpa using h
      · intro hlt
        rcases not_and_or.mp h2 with h | h
        · exact absurd hlt h
        · simpa using h

theorem hdGo_length (c : Cfg) : ∀ f l i, (hdGo c f l i).length = l.length := by
  intro f
  induction f with
  | zero => intro l i; rfl
  | succ f ih =>
    intro l i
    rw [hdGo]
    split
    · rfl
    · rw [ih, swapL_length]

theorem hdGo_perm (c : Cfg) : ∀ f l i, (hdGo c f l i).Perm l := by
  intro f
  induction f with
  | zero => intro l i; exact List.Perm.refl l
  | succ f ih =>
    intro l i
    rw [hdGo]
    split
    · exact List.Perm.refl l
    case isFalse hne =>
      rcases bestChild_cases c l i with ⟨hstop, _, _⟩ | ⟨hbor, hblt, _, _⟩
      · exact absurd hstop hne
      · have hilt : i < l.length := by omega
        exact (ih _ _).trans (swapL_perm hilt hblt (by omega))

theorem siftStep {c : Cfg} {l : List Int} {s hole b : Nat} (st : SiftState c l s hole)
    (hbor : b = 2 * hole + 1 ∨ b = 2 * hole + 2)
    (hblt : b < l.length)
    (hbpref : prefer c (l.getD b 0) (l.getD hole 0) = true)
    (hoc : ∀ oc, (oc = 2 * hole + 1 ∨ oc = 2 * hole + 2) → oc ≠ b → oc < l.length →
      prefer c (l.getD oc 0) (l.getD b 0) = false) :
    SiftState c (swapL l hole b) s b := by
  have hhb : hole < b := by omega
  have hhlt : hole < l.length := by omega
  have hpb : (b - 1) / 2 = hole := by omega
  constructor
  · have := st.lower
    omega
  · intro ch hch hlt' hs hpne
    have hlt : ch < l.length := by rwa [swapL_length] at hlt'
    by_cases hph : (ch - 1) / 2 = hole
    · have hch2 : ch = 2 * hole + 1 ∨ ch = 2 * hole + 2 := by omega
      rw [hph]
      by_cases hcb : ch = b
      · subst hcb
        rw [getD_swapL_left hblt, getD_swapL_right hhlt (by omega)]
        exact prefer_asymm hbpref
      · rw [getD_swapL_other (by omega) hcb, getD_swapL_right hhlt (by omega)]
        exact hoc ch hch2 hcb hlt
    · by_cases hchh : ch = hole
      · subst hchh
        have hsh : s < ch := by omega
        rw [getD_swapL_right hhlt (by omega),
          getD_swapL_other (by omega) (by omega)]
        exact st.upper hsh b (by omega) hblt hpb
      · by_cases hchb : ch = b
        · subst hchb
          exact absurd hpb hph
        · rw [getD_swapL_other hchh hchb, getD_swapL_other hph hpne]
          exact st.heap ch hch hlt hs hph
  · intro _ ch hch hlt' hpcb
    have hlt : ch < l.length := by rwa [swapL_length] at hlt'
    have hchgt : b < ch := by omega
    rw [hpb, getD_swapL_other (by omega) (by omega), getD_swapL_right hhlt (by omega),
      ← hpcb]
    have hsb : s ≤ (ch - 1) / 2 := by
      have := st.lower
      omega
    exact st.heap ch hch hlt hsb (by omega)

theorem hdGo_sift {c : Cfg} : ∀ f l s hole, l.length - hole ≤ f → SiftState c l s hole →
    HeapFrom c (hdGo c f l hole) s := by
  intro f
  induction f with
  | zero =>
    intro l s hole hf st ch hch hlt hs
    by_cases hph : (ch - 1) / 2 = hole
    · exact absurd hlt (by simp only [hdGo]; omega)
    · exact st.heap ch hch hlt hs hph
  | succ f ih =>
    intro l s hole hf st
    rw [hdGo]
    rcases bestChild_cases c l hole with ⟨hstop, hL, hR⟩ | ⟨hbor, hblt, hbpref, hoc⟩
    · rw [if_pos hstop]
      intro ch hch hlt hs
      by_cases hph : (ch - 1) / 2 = hole
      · have hch2 : ch = 2 * hole + 1 ∨ ch = 2 * hole + 2 := by omega
        rw [hph]
        rcases hch2 with rfl | rfl
        · exact hL hlt
        · exact hR hlt
      · exact st.heap ch hch hlt hs hph
    · have hne : bestChild c l hole ≠ hole := by omega
      rw [if_neg hne]
      apply ih
      · rw [swapL_length]; omega
      · exact siftStep st hbor hblt hbpref hoc

theorem heapifyDown_sift {c : Cfg} {l : List Int} {s hole : Nat} (st : SiftState c l s hole) :
    HeapFrom c (heapifyDown c l hole) s :=
  hdGo_sift l.length l s hole (by omega) st

theorem heapifyDown_length (c : Cfg) (l : List Int) (i : Nat) :
    (heapifyDown c l i).length = l.length :=
  hdGo_length c l.length l i

theorem heapifyDown_perm (c : Cfg) (l : List Int) (i : Nat) :
    (heapifyDown c l i).Perm l :=
  hdGo_perm c l.length l i

theorem heapFrom_root_min {c : Cfg} {l : List Int} (h : HeapFrom c l 0) :
    ∀ j, j < l.length → prefer c (l.getD j 0) (l.getD 0 0) = false := by
  intro j
  induction j using Nat.strong_induction_on with
  | _ j ih =>
    intro hj
    rcases Nat.eq_zero_or_pos j with rfl | hpos
    · exact prefer_irrefl c _
    · have hedge := h j hpos hj (Nat.zero_le _)
      have hpar := ih ((j - 1) / 2) (by omega) (by omega)
      exact notPref_trans hedge hpar

theorem is_valid_heap_iff (c : Cfg) (l : List Int) :
    is_valid_heap c l = true ↔ HeapFrom c l 0 := by
  unfold is_valid_heap HeapFrom
  simp only [List.all_eq_true, List.mem_range, Bool.not_eq_true', Bool.or_eq_false_iff,
    Bool.and_eq_false_iff, decide_eq_false_iff_not]
  constructor
  · intro h ch hch hlt _
    obtain ⟨p, hpdef⟩ : ∃ p, (ch - 1) / 2 = p := ⟨_, rfl⟩
    have hchp : ch = 2 * p + 1 ∨ ch = 2 * p + 2 := by omega
    have hp2 : p < (l.length - 2) / 2 + 1 := by omega
    have := h p hp2
    rw [hpdef]
    rcases hchp with hc | hc
    · rcases this.1 with hdec | hpf
      · omega
      · rw [hc]; exact hpf
    · rcases this.2 with hdec | hpf
      · omega
      · rw [hc]; exact hpf
  · intro h i _
    constructor
    · by_cases hlt : 2 * i + 1 < l.length
      · right
        have hpeq : (2 * i + 1 - 1) / 2 = i := by omega
        have := h (2 * i + 1) (by omega) hlt (by omega)
        rwa [hpeq] at this
      · exact Or.inl hlt
    · by_cases hlt : 2 * i + 2 < l.length
      · right
        have hpeq : (2 * i + 2 - 1) / 2 = i := by omega
        have := h (2 * i + 2) (by omega) hlt (by omega)
        rwa [hpeq] at this
      · exact Or.inl hlt

theorem popState_length {c : Cfg} {l : List Int} (h : l ≠ []) :
    (popState c l).length = l.length - 1 := by
  unfold popState
  have hl : 0 < l.length := List.length_pos.mpr h
  split
  case isTrue h2 => simp only [List.length_nil]; omega
  case isFalse h2 =>
    rw [heapifyDown_length]
    simp only [List.length_set, List.length_dropLast]

theorem getD_dropLast {l : List Int} {j : Nat} (h : j < l.length - 1) (d : Int) :
    l.dropLast.getD j d = l.getD j d := by
  simp only [List.getD_eq_getElem?_getD, List.getElem?_dropLast]
  rw [if_pos h]

theorem pop_perm (c : Cfg) {l : List Int} (h : l ≠ []) :
    l.Perm (l.getD 0 0 :: popState c l) := by
  unfold popState
  have hl : 0 < l.length := List.length_pos.mpr h
  split
  case isTrue h1 =>
    have : l.length = 1 := by omega
    obtain ⟨a, rfl⟩ := List.length_eq_one.mp this
    exact List.Perm.refl _
  case isFalse h1 =>
    have h2 : 2 ≤ l.length := by omega
    obtain ⟨d0, dt, hd⟩ : ∃ d0 dt, l.dropLast = d0 :: dt := by
      have : l.dropLast ≠ [] := by
        have : l.dropLast.length = l.length - 1 := List.length_dropLast l
        intro hcon
        rw [hcon] at this
        simp at this
        omega
      match l.dropLast, this with
      | d0 :: dt, _ => exact ⟨d0, dt, rfl⟩
    have hlast : l.dropLast ++ [l.getD (l.length - 1) 0] = l := by
      have hne := h
      have := List.dropLast_concat_getLast hne
      rw [List.getD_eq_getElem?_getD]
      rw [List.getElem?_eq_getElem (by omega)]
      simp only [Option.getD_some]
      rw [← List.getLast_eq_getElem]
      exact this
    have hd0 : l.getD 0 0 = d0 := by
      have : l.dropLast.getD 0 0 = l.getD 0 0 := getD_dropLast (by omega) 0
      rw [hd] at this
      simpa using this.symm
    obtain ⟨lastv, hlv⟩ : ∃ x, l.getD (l.length - 1) 0 = x := ⟨_, rfl⟩
    rw [hlv] at hlast
    refine List.Perm.trans ?_ (List.Perm.cons _ (heapifyDown_perm c _ 0).symm)
    rw [hd0, hd, hlv]
    have hset : (d0 :: dt).set 0 lastv = lastv :: dt := rfl
    rw [hset, ← hlast, hd]
    exact List.Perm.cons d0 (List.perm_append_singleton _ _)

theorem pop_valid {c : Cfg} {l : List Int} (h : HeapFrom c l 0) :
    HeapFrom c (popState c l) 0 := by
  unfold popState
  split
  · intro ch hch hlt _
    simp at hlt
  case isFalse h1 =>
    apply heapifyDown_sift
    constructor
    · exact le_refl 0
    · intro ch hch hlt hs hpne
      have hlen : ((l.dropLast).set 0 (l.getD (l.length - 1) 0)).length = l.length - 1 := by
        simp
      have hch_lt : ch < l.length - 1 := by rwa [hlen] at hlt
      rw [getD_set_ne (by omega), getD_set_ne (by omega), getD_dropLast (by omega),
        getD_dropLast (by omega)]
      exact h ch hch (by omega) (Nat.zero_le _)
    · intro hcon
      exact absurd hcon (lt_irrefl 0)

theorem popAllGo_perm (c : Cfg) : ∀ f l, l.length ≤ f → (popAllGo c f l).Perm l := by
  intro f
  induction f with
  | zero =>
    intro l h
    have : l = [] := List.length_eq_zero.mp (by omega)
    rw [this]
    exact List.Perm.refl _
  | succ f ih =>
    intro l h
    rw [popAllGo]
    split
    case isTrue h0 => rw [h0]
    case isFalse h0 =>
      have hpos : 0 < l.length := List.length_pos.mpr h0
      have hlen : (popState c l).length ≤ f := by rw [popState_length h0]; omega
      exact (List.Perm.cons _ (ih _ hlen)).trans (pop_perm c h0).symm

theorem popAllGo_sorted {c : Cfg} : ∀ f l, l.length ≤ f → HeapFrom c l 0 →
    (popAllGo c f l).Pairwise (fun x y => prefer c y x = false) := by
  intro f
  induction f with
  | zero => intro l _ _; exact List.Pairwise.nil
  | succ f ih =>
    intro l h hv
    rw [popAllGo]
    split
    · exact List.Pairwise.nil
    case isFalse h0 =>
      have hpos : 0 < l.length := List.length_pos.mpr h0
      have hlen : (popState c l).length ≤ f := by rw [popState_length h0]; omega
      refine List.Pairwise.cons ?_ (ih _ hlen (pop_valid hv))
      intro y hy
      have hy2 : y ∈ popState c l := (popAllGo_perm c f _ hlen).subset hy
      have hy3 : y ∈ l := (pop_perm c h0).mem_iff.mpr (List.mem_cons_of_mem _ hy2)
      obtain ⟨j, hjlt, hj⟩ := List.mem_iff_getElem.mp hy3
      have hgety : l.getD j 0 = y := by
        rw [List.getD_eq_getElem?_getD, List.getElem?_eq_getElem hjlt]
        simpa using hj
      have := heapFrom_root_min hv j hjlt
      rwa [hgety] at this

/-- C3: starting from any state satisfying the heap invariant, repeatedly
calling `pop()` until the heap is empty yields exactly the stored
elements, and the sequence of their computed keys is non-decreasing in
Min mode and non-increasing in Max mode. -/
theorem c3_pop_sorted (c : Cfg) (l : List Int) (h : is_valid_heap c l = true) :
    (popAll c l).Perm l ∧
    (c.min_heap = true → ((popAll c l).map c.k).Pairwise (fun a b => a ≤ b)) ∧
    (c.min_heap = false → ((popAll c l).map c.k).Pairwise (fun a b => b ≤ a)) := by
  have hv := (is_valid_heap_iff c l).mp h
  have hperm := popAllGo_perm c l.length l (le_refl _)
  have hsort := popAllGo_sorted l.length l (le_refl _) hv
  refine ⟨hperm, ?_, ?_⟩
  · intro hmin
    rw [List.pairwise_map]
    refine hsort.imp ?_
    intro a b hab
    unfold prefer at hab
    rw [hmin] at hab
    simp only [if_true] at hab
    simp at hab
    omega
  · intro hmax
    rw [List.pairwise_map]
    refine hsort.imp ?_
    intro a b hab
    unfold prefer at hab
    rw [hmax] at hab
    simp at hab
    omega

theorem c3_pop_sorted_witness :
    is_valid_heap cMinId [1, 3, 2] = true ∧
    ((popAll cMinId [1, 3, 2]).Perm [1, 3, 2] ∧
     (cMinId.min_heap = true →
       ((popAll cMinId [1, 3, 2]).map cMinId.k).Pairwise (fun a b => a ≤ b)) ∧
     (cMinId.min_heap = false →
       ((popAll cMinId [1, 3, 2]).map cMinId.k).Pairwise (fun a b => b ≤ a))) :=
  ⟨by decide, c3_pop_sorted cMinId [1, 3, 2] (by decide)⟩

theorem getD_append_lt {l l2 : List Int} {j : Nat} (h : j < l.length) (d : Int) :
    (l ++ l2).getD j d = l.getD j d := by
  simp only [List.getD_eq_getElem?_getD, List.getElem?_append_left h]

theorem getD_append_self (l : List Int) (v d : Int) :
    (l ++ [v]).getD l.length d = v := by
  simp only [List.getD_eq_getElem?_getD, List.getElem?_append_right (le_refl l.length)]
  simp

theorem huGo_length (c : Cfg) : ∀ f l i, (huGo c f l i).length = l.length := by
  intro f
  induction f with
  | zero => intro l i; rfl
  | succ f ih =>
    intro l i
    rw [huGo]
    split
    · rw [ih, swapL_length]
    · rfl

theorem huGo_perm (c : Cfg) : ∀ f l i, i < l.length → (huGo c f l i).Perm l := by
  intro f
  induction f with
  | zero => intro l i _; exact List.Perm.refl _
  | succ f ih =>
    intro l i hi
    rw [huGo]
    split
    case isTrue hc =>
      have hp : (i - 1) / 2 < l.length := by omega
      refine (ih _ _ (by rw [swapL_length]; omega)).trans ?_
      exact swapL_perm hi hp (by omega)
    case isFalse hc => exact List.Perm.refl _

theorem huGo_root_stay (c : Cfg) : ∀ f l i, i < l.length →
    prefer c (l.getD i 0) (l.getD 0 0) = false →
    (huGo c f l i).getD 0 0 = l.getD 0 0 := by
  intro f
  induction f with
  | zero => intro l i _ _; rfl
  | succ f ih =>
    intro l i hi h
    rw [huGo]
    split
    case isTrue hc =>
      obtain ⟨hipos, hpref⟩ := hc
      have hp0 : 0 < (i - 1) / 2 := by
        by_contra hcon
        have hz : (i - 1) / 2 = 0 := by omega
        rw [hz] at hpref
        rw [hpref] at h
        exact Bool.noConfusion h
      have hplt : (i - 1) / 2 < l.length := by omega
      rw [ih _ _ (by rw [swapL_length]; omega) ?_]
      · exact getD_swapL_other (by omega) (by omega) 0
      · rw [getD_swapL_left hplt, getD_swapL_other (by omega) (by omega)]
        exact h
    case isFalse hc => rfl

theorem huGo_top (c : Cfg) {v : Int} : ∀ f l i, i < l.length → i + 1 ≤ f →
    l.getD i 0 = v →
    (∀ j, j < l.length → j ≠ i → prefer c v (l.getD j 0) = true) →
    (huGo c f l i).getD 0 0 = v := by
  intro f
  induction f with
  | zero => intro l i _ hf _ _; omega
  | succ f ih =>
    intro l i hi hf hv hall
    rw [huGo]
    rcases Nat.eq_zero_or_pos i with rfl | hipos
    · rw [if_neg (by simp)]
      exact hv
    · have hplt : (i - 1) / 2 < l.length := by omega
      have hpne : (i - 1) / 2 ≠ i := by omega
      rw [if_pos ⟨hipos, by rw [hv]; exact hall _ hplt hpne⟩]
      apply ih
      · rw [swapL_length]; omega
      · omega
      · rw [getD_swapL_left hplt]; exact hv
      · intro j hj hjne
        rw [swapL_length] at hj
        by_cases hji : j = i
        · rw [hji, getD_swapL_right hi (Ne.symm hpne)]
          exact hall _ hplt hpne
        · rw [getD_swapL_other hji hjne]
          exact hall _ hj hji

theorem push_length (c : Cfg) (l : List Int) (v : Int) :
    (push c l v).length = l.length + 1 := by
  unfold push heapifyUp
  split
  · simp
  · rw [huGo_length]; simp

theorem push_perm (c : Cfg) (l : List Int) (v : Int) : (push c l v).Perm (v :: l) := by
  unfold push heapifyUp
  split
  case isTrue h0 =>
    have : l = [] := List.length_eq_zero.mp h0
    rw [this]
    exact List.Perm.refl _
  case isFalse h0 =>
    refine (huGo_perm c _ _ _ (by simp)).trans ?_
    exact List.perm_append_singleton v l

/-- C4: `pushpop(value)` returns the same value as `push(value)` followed
by `pop()`, and the two resulting storages hold the same multiset of
elements. -/
theorem c4_pushpop_eq_push_pop (c : Cfg) (l : List Int) (v : Int)
    (h : is_valid_heap c l = true) :
    (popF c (push c l v)).1 = some (pushpop c l v).1 ∧
    ((pushpop c l v).2).Perm (popF c (push c l v)).2 := by
  have hv := (is_valid_heap_iff c l).mp h
  have hplen : (push c l v).length = l.length + 1 := push_length c l v
  have hpne : push c l v ≠ [] := by
    intro hcon
    rw [hcon] at hplen
    simp at hplen
  have hpperm : (push c l v).Perm (v :: l) := push_perm c l v
  have hpopF1 : (popF c (push c l v)).1 = some ((push c l v).getD 0 0) := by
    unfold popF
    rw [if_neg hpne]
  have hpopF2 : (popF c (push c l v)).2 = popState c (push c l v) := by
    unfold popF
    rw [if_neg hpne]
  have hpp : (push c l v).Perm ((push c l v).getD 0 0 :: popState c (push c l v)) :=
    pop_perm c hpne
  by_cases hemp : l = []
  · subst hemp
    have hpush : push c [] v = [v] := rfl
    rw [hpush] at hpopF1 hpopF2
    have hppv : pushpop c [] v = (v, []) := by
      unfold pushpop
      rw [if_pos (Or.inl rfl)]
    rw [hppv, hpush, hpopF1, hpopF2]
    have hps : popState c [v] = [] := by
      unfold popState
      rw [if_pos (by simp)]
    rw [hps]
    exact ⟨rfl, List.Perm.refl _⟩
  · have hlen1 : 1 ≤ l.length := List.length_pos.mpr hemp
    have hpush : push c l v = huGo c (l.length + 1) (l ++ [v]) l.length := by
      unfold push heapifyUp
      rw [if_neg (by omega)]
    by_cases hpref : prefer c v (l.getD 0 0) = true
    · have hroot : (push c l v).getD 0 0 = v := by
        rw [hpush]
        apply huGo_top (v := v)
        · simp
        · exact le_refl _
        · exact getD_append_self l v 0
        · intro j hj hjne
          simp only [List.length_append, List.length_singleton] at hj
          have hjl : j < l.length := by omega
          rw [getD_append_lt hjl]
          exact pref_of_pref_notPref hpref (heapFrom_root_min hv j hjl)
      have hppv : pushpop c l v = (v, l) := by
        unfold pushpop
        rw [if_pos (Or.inr hpref)]
      rw [hppv, hpopF1, hpopF2, hroot]
      refine ⟨rfl, ?_⟩
      rw [hroot] at hpp
      exact (hpp.symm.trans hpperm).cons_inv.symm
    · have hpref' : prefer c v (l.getD 0 0) = false := by simpa using hpref
      have hg0 : (l ++ [v]).getD 0 0 = l.getD 0 0 := getD_append_lt (by omega) 0
      have hroot : (push c l v).getD 0 0 = l.getD 0 0 := by
        rw [hpush, huGo_root_stay c _ _ _ (by simp) ?_]
        · exact hg0
        · rw [getD_append_self, hg0]
          exact hpref'
      have hppv : pushpop c l v = (l.getD 0 0, heapifyDown c (l.set 0 v) 0) := by
        unfold pushpop
        rw [if_neg (by push_neg; exact ⟨hemp, by simpa using hpref⟩)]
      rw [hppv, hpopF1, hpopF2, hroot]
      refine ⟨rfl, ?_⟩
      obtain ⟨d0, dt, rfl⟩ := List.exists_cons_of_ne_nil hemp
      have hd0 : (d0 :: dt).getD 0 0 = d0 := rfl
      rw [hd0] at hroot
      have hpp2 : (push c (d0 :: dt) v).Perm (d0 :: popState c (push c (d0 :: dt) v)) := by
        rw [hroot] at hpp
        exact hpp
      have h2 : (d0 :: popState c (push c (d0 :: dt) v)).Perm (v :: d0 :: dt) :=
        hpp2.symm.trans hpperm
      have h3 : (d0 :: popState c (push c (d0 :: dt) v)).Perm (d0 :: v :: dt) :=
        h2.trans (List.Perm.swap d0 v dt)
      have h4 : (popState c (push c (d0 :: dt) v)).Perm (v :: dt) := h3.cons_inv
      refine ((heapifyDown_perm c _ 0).trans ?_).trans h4.symm
      have hset : (d0 :: dt).set 0 v = v :: dt := rfl
      rw [hset]

theorem c4_pushpop_eq_push_pop_witness :
    is_valid_heap cMinId [1, 5, 2] = true ∧
    ((popF cMinId (push cMinId [1, 5, 2] 3)).1 = some (pushpop cMinId [1, 5, 2] 3).1 ∧
     ((pushpop cMinId [1, 5, 2] 3).2).Perm (popF cMinId (push cMinId [1, 5, 2] 3)).2) :=
  ⟨by decide, c4_pushpop_eq_push_pop cMinId [1, 5, 2] 3 (by decide)⟩

/-- C1: on a Max-heap with the identity key, `remove(0)` leaves a state on
which `is_valid_heap()` is `False`.  The initial state `[10,1,9,0,0,8,8]`
satisfies the invariant; removing the match at index 3 moves the last
element `8` there, and `_remove_at` chooses the sift direction with the
raw comparison `data[3] < data[1]` (`8 < 1`, false) instead of
`_prefer`, so it sifts down although in Max mode the element must move
up; the violated edge `(1, 3)` survives. -/
theorem c1_remove_invariant_failure :
    is_valid_heap cMaxId [10, 1, 9, 0, 0, 8, 8] = true ∧
    (remove cMaxId [10, 1, 9, 0, 0, 8, 8] 0 false).2 = 1 ∧
    is_valid_heap cMaxId (remove cMaxId [10, 1, 9, 0, 0, 8, 8] 0 false).1 = false := by
  decide

/-- C2: `merge` on two compatible heaps with a non-empty argument never
completes: its body runs inside the `_mutation` guard and calls
`heapify()`, whose own `_mutation` guard sees the already-set flag and
raises `RuntimeError` (re-entrant mutation).  The storage is left
extended but not heapified, here `[5,1]`, which violates the Min-heap
invariant. -/
theorem c2_merge_reentrant_failure :
    (mergeOp (fun _ => fun x => x)
      ⟨true, 0, raiseStr, [5], false⟩ ⟨true, 0, raiseStr, [1], false⟩).1
      = Except.error MErr.reentrant ∧
    (mergeOp (fun _ => fun x => x)
      ⟨true, 0, raiseStr, [5], false⟩ ⟨true, 0, raiseStr, [1], false⟩).2.data = [5, 1] ∧
    is_valid_heap cMinId
      (mergeOp (fun _ => fun x => x)
        ⟨true, 0, raiseStr, [5], false⟩ ⟨true, 0, raiseStr, [1], false⟩).2.data = false :=
  ⟨rfl, rfl, rfl⟩

/-- C5 counterexample: at a Min-heap `[1]` and value `5`, the value is not
preferred over the root, yet `pushpop` does not return the value with the
storage unmodified: it returns the old root `1` and stores `[5]`. -/
theorem c5_claim_counterexample :
    prefer cMinId 5 (([1] : List Int).getD 0 0) = false ∧
    ([1] : List Int) ≠ [] ∧
    pushpop cMinId [1] 5 = (1, [5]) ∧
    pushpop cMinId [1] 5 ≠ (5, [1]) := by
  decide

/-- C5 (amended): if the heap is empty or the value IS preferred over the
root, `pushpop` returns the value unchanged and leaves the storage
unmodified; otherwise it swaps the value into the root position, sifts
down from the root, and returns the old root. -/
theorem c5_pushpop_branches (c : Cfg) (l : List Int) (v : Int) :
    ((l = [] ∨ prefer c v (l.getD 0 0) = true) → pushpop c l v = (v, l)) ∧
    (l ≠ [] → prefer c v (l.getD 0 0) = false →
      pushpop c l v = (l.getD 0 0, heapifyDown c (l.set 0 v) 0)) := by
  constructor
  · intro hc
    unfold pushpop
    rw [if_pos hc]
  · intro h1 h2
    unfold pushpop
    rw [if_neg (by push_neg; exact ⟨h1, by simp only [h2]; simp⟩)]

theorem c5_pushpop_branches_witness :
    (([1] : List Int) ≠ [] ∧ prefer cMinId 5 (([1] : List Int).getD 0 0) = false) ∧
    pushpop cMinId [1] 5 = (([1] : List Int).getD 0 0, heapifyDown cMinId ([1].set 0 5) 0) :=
  ⟨⟨by decide, by decide⟩, (c5_pushpop_branches cMinId [1] 5).2 (by decide) (by decide)⟩

theorem countP_compare_zero {evs : List Ev} (h : evs.all isSwapEv = true) :
    evs.countP isCompareEv = 0 := by
  induction evs with
  | nil => rfl
  | cons e t ih =>
    rw [List.all_cons, Bool.and_eq_true] at h
    rw [List.countP_cons]
    have : isCompareEv e = false := by
      cases e with
      | swap i j ai aj => rfl
      | compare i j => exact absurd h.1 (by simp [isSwapEv])
    rw [this]
    simp [ih h.2]

theorem huGoT_spec (c : Cfg) : ∀ f l i,
    (huGoT c f l i).evs.all isSwapEv = true ∧
    (huGoT c f l i).data = huGo c f l i := by
  intro f
  induction f with
  | zero => intro l i; exact ⟨rfl, rfl⟩
  | succ f ih =>
    intro l i
    rw [huGoT, huGo]
    by_cases h1 : 0 < i
    · rw [if_pos h1]
      by_cases h2 : prefer c (l.getD i 0) (l.getD ((i - 1) / 2) 0) = true
      · rw [if_pos h2, if_pos ⟨h1, h2⟩]
        obtain ⟨ha, hd⟩ := ih (swapL l i ((i - 1) / 2)) ((i - 1) / 2)
        exact ⟨by simp [isSwapEv, ha], hd⟩
      · rw [if_neg h2, if_neg (by tauto)]
        exact ⟨rfl, rfl⟩
    · rw [if_neg h1, if_neg (by tauto)]
      exact ⟨rfl, rfl⟩

theorem hdGoT_spec (c : Cfg) : ∀ f l i,
    (hdGoT c f l i).evs.all isSwapEv = true ∧
    (hdGoT c f l i).data = hdGo c f l i := by
  intro f
  induction f with
  | zero => intro l i; exact ⟨rfl, rfl⟩
  | succ f ih =>
    intro l i
    rw [hdGoT, hdGo]
    by_cases h : bestChild c l i = i
    · rw [if_pos h, if_pos h]
      exact ⟨rfl, rfl⟩
    · rw [if_neg h, if_neg h]
      obtain ⟨ha, hd⟩ := ih (swapL l i (bestChild c l i)) (bestChild c l i)
      exact ⟨by simp [isSwapEv, ha], hd⟩

/-- C6 counterexample: a sift-up on the Min-heap storage `[2,1]` from
index 1 evaluates exactly one pairwise comparison but emits zero
`compare` events (it emits the single `swap` event only), so the observer
is not notified once per comparison. -/
theorem c6_claim_counterexample :
    (heapifyUpT cMinId [2, 1] 1).cmps = 1 ∧
    (heapifyUpT cMinId [2, 1] 1).evs.countP isCompareEv = 0 ∧
    (heapifyUpT cMinId [2, 1] 1).evs.countP isSwapEv = 1 := by
  decide

/-- C6 (amended): during `_heapify_up` and `_heapify_down` the observer
receives one `swap` event per exchange (sent by `_swap`) and nothing
else; in particular no `compare` event is ever emitted, while the final
storage is exactly that of the uninstrumented sift. -/
theorem c6_sift_events_swap_only (c : Cfg) (l : List Int) (i : Nat) :
    ((heapifyUpT c l i).evs.all isSwapEv = true ∧
     (heapifyUpT c l i).evs.countP isCompareEv = 0 ∧
     (heapifyUpT c l i).data = heapifyUp c l i) ∧
    ((heapifyDownT c l i).evs.all isSwapEv = true ∧
     (heapifyDownT c l i).evs.countP isCompareEv = 0 ∧
     (heapifyDownT c l i).data = heapifyDown c l i) := by
  obtain ⟨hu1, hu2⟩ := huGoT_spec c (i + 1) l i
  obtain ⟨hd1, hd2⟩ := hdGoT_spec c l.length l i
  exact ⟨⟨hu1, countP_compare_zero hu1, hu2⟩, ⟨hd1, countP_compare_zero hd1, hd2⟩⟩

theorem preferE_none_left {c : CfgE} {a b : Int} (h : c.k a = none) :
    preferE c a b = none := by
  unfold preferE
  rw [h]

theorem preferE_none_right {c : CfgE} {a b : Int} (h : c.k b = none) :
    preferE c a b = none := by
  unfold preferE
  rw [h]
  cases c.k a <;> rfl

theorem preferE_some_keys {c : CfgE} {a b : Int} {x : Bool} (h : preferE c a b = some x) :
    (∃ ka, c.k a = some ka) ∧ ∃ kb, c.k b = some kb := by
  unfold preferE at h
  cases hka : c.k a with
  | none => rw [hka] at h; exact absurd h (by simp)
  | some ka =>
    cases hkb : c.k b with
    | none => rw [hka, hkb] at h; exact absurd h (by simp)
    | some kb => exact ⟨⟨ka, rfl⟩, ⟨kb, rfl⟩⟩

theorem hdGoE_some_spec (c : CfgE) : ∀ f l i l', hdGoE c f l i = some l' →
    l'.length = l.length ∧ ∀ j, c.k (l.getD j 0) = none → l'.getD j 0 = l.getD j 0 := by
  intro f
  induction f with
  | zero =>
    intro l i l' h
    rw [hdGoE] at h
    cases h
    exact ⟨rfl, fun _ _ => rfl⟩
  | succ f ih =>
    intro l i l' h
    rw [hdGoE] at h
    by_cases hl : 2 * i + 1 < l.length
    · rw [if_pos hl] at h
      cases hpe : preferE c (l.getD (2 * i + 1) 0) (l.getD i 0) with
      | none => rw [hpe] at h; exact absurd h (by simp)
      | some pl =>
        rw [hpe] at h
        obtain ⟨⟨kl, hkl⟩, ⟨ki, hki⟩⟩ := preferE_some_keys hpe
        have hstep : ∀ B, B = 2 * i + 1 ∨ B = 2 * i + 2 →
            (∃ kB, c.k (l.getD B 0) = some kB) →
            hdGoE c f (swapL l i B) B = some l' →
            l'.length = l.length ∧
              ∀ j, c.k (l.getD j 0) = none → l'.getD j 0 = l.getD j 0 := by
          intro B hBor hkBe h
          obtain ⟨kB, hkB⟩ := hkBe
          obtain ⟨ih1, ih2⟩ := ih _ _ _ h
          constructor
          · rw [ih1, swapL_length]
          · intro j hj
            have hji : j ≠ i := by
              intro hc
              rw [hc, hki] at hj
              exact Option.noConfusion hj
            have hjB : j ≠ B := by
              intro hc
              rw [hc, hkB] at hj
              exact Option.noConfusion hj
            have hsw : (swapL l i B).getD j 0 = l.getD j 0 :=
              getD_swapL_other hji hjB 0
            rw [ih2 j (by rw [hsw]; exact hj), hsw]
        cases pl with
        | true =>
          dsimp only at h
          by_cases hr : 2 * i + 2 < l.length
          · rw [if_pos hr] at h
            cases hpe2 : preferE c (l.getD (2 * i + 2) 0) (l.getD (2 * i + 1) 0) with
            | none => rw [hpe2] at h; exact absurd h (by simp)
            | some pr =>
              rw [hpe2] at h
              obtain ⟨⟨kr, hkr⟩, _⟩ := preferE_some_keys hpe2
              cases pr with
              | true =>
                dsimp only at h
                exact hstep _ (Or.inr rfl) ⟨kr, hkr⟩ h
              | false =>
                dsimp only at h
                exact hstep _ (Or.inl rfl) ⟨kl, hkl⟩ h
          · rw [if_neg hr] at h
            exact hstep _ (Or.inl rfl) ⟨kl, hkl⟩ h
        | false =>
          dsimp only at h
          by_cases hr : 2 * i + 2 < l.length
          · rw [if_pos hr] at h
            cases hpe2 : preferE c (l.getD (2 * i + 2) 0) (l.getD i 0) with
            | none => rw [hpe2] at h; exact absurd h (by simp)
            | some pr =>
              rw [hpe2] at h
              obtain ⟨⟨kr, hkr⟩, _⟩ := preferE_some_keys hpe2
              cases pr with
              | true =>
                dsimp only at h
                exact hstep _ (Or.inr rfl) ⟨kr, hkr⟩ h
              | false =>
                dsimp only at h
                cases h
                exact ⟨rfl, fun _ _ => rfl⟩
          · rw [if_neg hr] at h
            cases h
            exact ⟨rfl, fun _ _ => rfl⟩
    · rw [if_neg hl] at h
      cases h
      exact ⟨rfl, fun _ _ => rfl⟩

theorem hdGoE_err (c : CfgE) {l : List Int} {p j : Nat} (f : Nat)
    (hj : j < l.length) (hk : c.k (l.getD j 0) = none)
    (hor : j = p ∨ (0 < j ∧ (j - 1) / 2 = p)) (hlp : 2 * p + 1 < l.length) :
    hdGoE c (f + 1) l p = none := by
  rw [hdGoE, if_pos hlp]
  have hj3 : j = p ∨ j = 2 * p + 1 ∨ j = 2 * p + 2 := by omega
  rcases hj3 with rfl | rfl | rfl
  · rw [preferE_none_right hk]
  · rw [preferE_none_left hk]
  · cases hpe : preferE c (l.getD (2 * p + 1) 0) (l.getD p 0) with
    | none => rfl
    | some pl =>
      cases pl with
      | true =>
        dsimp only
        rw [if_pos hj, preferE_none_left hk]
      | false =>
        dsimp only
        rw [if_pos hj, preferE_none_left hk]

theorem buildFromE_err (c : CfgE) : ∀ i l, 2 ≤ l.length →
    (∃ j, j < l.length ∧ c.k (l.getD j 0) = none ∧ (j = 0 ∨ (j - 1) / 2 ≤ i)) →
    buildFromE c i l = none := by
  intro i
  induction i with
  | zero =>
    intro l hlen he
    obtain ⟨j, hj, hk, hor⟩ := he
    rw [buildFromE]
    obtain ⟨f, hf⟩ : ∃ f, l.length = f + 1 := ⟨l.length - 1, by omega⟩
    rw [hf]
    exact hdGoE_err c f hj hk (by omega) (by omega)
  | succ i ih =>
    intro l hlen he
    obtain ⟨j, hj, hk, hor⟩ := he
    rw [buildFromE]
    by_cases hcase : 0 < j ∧ (j - 1) / 2 = i + 1
    · obtain ⟨f, hf⟩ : ∃ f, l.length = f + 1 := ⟨l.length - 1, by omega⟩
      rw [hf, hdGoE_err c f hj hk (Or.inr hcase) (by omega)]
    · cases hres : hdGoE c l.length l (i + 1) with
      | none => rfl
      | some l2 =>
        obtain ⟨hlen2, hfix⟩ := hdGoE_some_spec c _ _ _ _ hres
        have hor2 : j = 0 ∨ (j - 1) / 2 ≤ i := by
          rcases Nat.eq_zero_or_pos j with rfl | hjpos
          · exact Or.inl rfl
          · right
            have hne2 : (j - 1) / 2 ≠ i + 1 := fun hh => hcase ⟨hjpos, hh⟩
            rcases hor with h0 | hle
            · omega
            · omega
        apply ih
        · omega
        · exact ⟨j, by omega, by rw [hfix j hk]; exact hk, hor2⟩

/-- C7: if the key computation raises on some item of the batch passed to
`extend(items)`, the call raises and the storage afterwards equals the
storage before the call: the whole batch is rolled back and no partial
mutation is observable. -/
theorem c7_extend_rollback (c : CfgE) (st items : List Int) (x : Int)
    (hx : x ∈ items) (hk : c.k x = none) :
    (extendE c st items).1 = none ∧ (extendE c st items).2 = st := by
  unfold extendE
  have hne : items ≠ [] := by
    intro h
    rw [h] at hx
    exact absurd hx (List.not_mem_nil x)
  rw [if_neg hne]
  by_cases h1 : items.length = 1
  · rw [if_pos h1]
    obtain ⟨a, rfl⟩ := List.length_eq_one.mp h1
    have hxa : x = a := by simpa using hx
    subst hxa
    have hget : ([x] : List Int).getD 0 0 = x := rfl
    unfold pushE
    rw [hget, hk]
    exact ⟨rfl, rfl⟩
  · rw [if_neg h1]
    have hlen2 : 2 ≤ (st ++ items).length := by
      have h0 : 1 ≤ items.length := List.length_pos.mpr hne
      simp only [List.length_append]
      omega
    have hxm : x ∈ st ++ items := List.mem_append_right st hx
    obtain ⟨j, hj, hjx⟩ := List.mem_iff_getElem.mp hxm
    have hgetD : (st ++ items).getD j 0 = x := by
      rw [List.getD_eq_getElem?_getD, List.getElem?_eq_getElem hj]
      simpa using hjx
    have herr : heapifyAllE c (st ++ items) = none := by
      unfold heapifyAllE
      exact buildFromE_err c _ _ hlen2 ⟨j, hj, by rw [hgetD]; exact hk, by omega⟩
    rw [herr]
    exact ⟨rfl, rfl⟩

theorem c7_extend_rollback_witness :
    ((7 : Int) ∈ [(3 : Int), 7] ∧ cBad7.k 7 = none) ∧
    ((extendE cBad7 [1, 2] [3, 7]).1 = none ∧ (extendE cBad7 [1, 2] [3, 7]).2 = [1, 2]) :=
  ⟨⟨by decide, by decide⟩, c7_extend_rollback cBad7 [1, 2] [3, 7] 7 (by decide) (by decide)⟩

theorem huGoS_sink_normalize (c : Cfg) (s : Sink) : ∀ f g i,
    huGoS c (normalizeSink s) f g i = huGoS c s f g i := by
  intro f
  induction f with
  | zero => intro g i; rfl
  | succ f ih =>
    intro g i
    rw [huGoS, huGoS]
    split
    · rw [ih]
      rfl
    · rfl

theorem hdGoS_sink_normalize (c : Cfg) (s : Sink) : ∀ f g i,
    hdGoS c (normalizeSink s) f g i = hdGoS c s f g i := by
  intro f
  induction f with
  | zero => intro g i; rfl
  | succ f ih =>
    intro g i
    rw [hdGoS, hdGoS]
    split
    · rfl
    · rw [ih]
      rfl

/-- C9: an exception raised by the observer during a notification is
caught inside `_notify` and never propagates: the result of the
dispatch, and of the `push` and `pop` operations built on it, is
identical to what it would be had the observer returned normally (same
state effect, no exception). -/
theorem c9_observer_failures_swallowed (c : Cfg) (sink : Sink) (ev : EvName) (g st : HState)
    (v : Int) :
    notifyS sink ev g = notifyS (normalizeSink sink) ev g ∧
    pushS c sink st v = pushS c (normalizeSink sink) st v ∧
    popS c sink st = popS c (normalizeSink sink) st := by
  have h1 : huGoS c (normalizeSink sink) = huGoS c sink :=
    funext fun f => funext fun g2 => funext fun i => huGoS_sink_normalize c sink f g2 i
  have h2 : hdGoS c (normalizeSink sink) = hdGoS c sink :=
    funext fun f => funext fun g2 => funext fun i => hdGoS_sink_normalize c sink f g2 i
  refine ⟨rfl, ?_, ?_⟩
  · unfold pushS
    rw [h1]
    rfl
  · unfold popS
    rw [h2]
    rfl

/-- C10: `_normalize_key` on a float NaN raises exactly under the `raise`
policy; under `min` it yields negative infinity, and under every other
policy string, recognized or not, it yields positive infinity. -/
theorem c10_normalize_nan (policy : String) :
    ((∃ e, normalize_key policy PyKey.nan = .error e) ↔ policy = raiseStr) ∧
    (policy = minStr → normalize_key policy PyKey.nan = .ok PyKey.ninf) ∧
    (policy ≠ raiseStr → policy ≠ minStr →
      normalize_key policy PyKey.nan = .ok PyKey.pinf) := by
  refine ⟨⟨?_, ?_⟩, ?_, ?_⟩
  · rintro ⟨e, he⟩
    by_cases hr : policy = raiseStr
    · exact hr
    · exfalso
      unfold normalize_key at he
      dsimp only at he
      rw [if_neg hr] at he
      by_cases hm : policy = minStr
      · rw [if_pos hm] at he
        exact Except.noConfusion he
      · rw [if_neg hm] at he
        by_cases hx : policy = maxStr
        · rw [if_pos hx] at he
          exact Except.noConfusion he
        · rw [if_neg hx] at he
          exact Except.noConfusion he
  · intro hr
    refine ⟨(), ?_⟩
    unfold normalize_key
    rw [if_pos hr]
  · intro hm
    unfold normalize_key
    rw [hm]
    rw [if_neg (by decide), if_pos rfl]
  · intro h1 h2
    unfold normalize_key
    dsimp only
    rw [if_neg h1, if_neg h2]
    split <;> rfl

theorem c10_normalize_nan_witness :
    (weirdStr ≠ raiseStr ∧ weirdStr ≠ minStr) ∧
    normalize_key weirdStr PyKey.nan = .ok PyKey.pinf :=
  ⟨⟨by decide, by decide⟩, (c10_normalize_nan weirdStr).2.2 (by decide) (by decide)⟩

theorem pushS_reentrant (c : Cfg) (sink : Sink) (g : HState) (w : Int)
    (h : g.mutating = true) : pushS c sink g w = (none, g) := by
  unfold pushS
  rw [if_pos (by simp [h])]

theorem reentrantSink_busy (c : Cfg) (w : Int) (ev : EvName) (g : HState)
    (h : g.mutating = true) :
    (reentrantSink c w) ev g = ({ g with log := g.log ++ [InnerRes.err] }, false) := by
  unfold reentrantSink
  rw [pushS_reentrant c trivialSink g w h]

theorem notifyS_reentrant_busy (c : Cfg) (w : Int) (ev : EvName) (g : HState)
    (h : g.mutating = true) :
    notifyS (reentrantSink c w) ev g = { g with log := g.log ++ [InnerRes.err] } := by
  unfold notifyS
  rw [reentrantSink_busy c w ev g h]

theorem huGoS_reentrant (c : Cfg) (w : Int) : ∀ f g i, g.mutating = true →
    (huGoS c (reentrantSink c w) f g i).data = huGo c f g.data i ∧
    (huGoS c (reentrantSink c w) f g i).mutating = true ∧
    ∃ L, (huGoS c (reentrantSink c w) f g i).log = g.log ++ L := by
  intro f
  induction f with
  | zero => intro g i h; exact ⟨rfl, h, ⟨[], by rw [huGoS]; simp⟩⟩
  | succ f ih =>
    intro g i h
    rw [huGoS, huGo]
    by_cases hc : 0 < i ∧ prefer c (g.data.getD i 0) (g.data.getD ((i - 1) / 2) 0) = true
    · rw [if_pos hc, if_pos hc,
        notifyS_reentrant_busy c w EvName.swap
          (⟨swapL g.data i ((i - 1) / 2), g.mutating, g.log⟩ : HState) h]
      obtain ⟨h1, h2, L, h3⟩ := ih
        ⟨swapL g.data i ((i - 1) / 2), g.mutating, g.log ++ [InnerRes.err]⟩
        ((i - 1) / 2) h
      refine ⟨h1, h2, ⟨[InnerRes.err] ++ L, ?_⟩⟩
      rw [h3]
      simp
    · rw [if_neg hc, if_neg hc]
      exact ⟨rfl, h, ⟨[], by simp⟩⟩


theorem pushS_reentrant_eq_empty (c : Cfg) (w : Int) (st : HState) (v : Int)
    (hm : st.mutating = false) (hnb : st.data.length = 0) :
    pushS c (reentrantSink c w) st v =
      (some (), (⟨st.data ++ [v], false,
        ((st.log ++ [InnerRes.err]) ++ [InnerRes.err]) ++ [InnerRes.err]⟩ : HState)) := by
  unfold pushS
  rw [if_neg (by simp [hm])]
  dsimp only
  rw [if_pos hnb]
  rw [notifyS_reentrant_busy c w EvName.insert_start (⟨st.data, true, st.log⟩ : HState) rfl]
  rw [notifyS_reentrant_busy c w EvName.insert
    (⟨st.data ++ [v], true, st.log ++ [InnerRes.err]⟩ : HState) rfl]
  rw [notifyS_reentrant_busy c w EvName.push_done
    (⟨st.data ++ [v], true, (st.log ++ [InnerRes.err]) ++ [InnerRes.err]⟩ : HState) rfl]

theorem pushS_reentrant_eq (c : Cfg) (w : Int) (st : HState) (v : Int)
    (hm : st.mutating = false) (hnb : ¬st.data.length = 0) :
    pushS c (reentrantSink c w) st v =
      (some (), (⟨(huGoS c (reentrantSink c w) (st.data.length + 1)
          ⟨st.data ++ [v], true, (st.log ++ [InnerRes.err]) ++ [InnerRes.err]⟩
          st.data.length).data,
        false,
        (huGoS c (reentrantSink c w) (st.data.length + 1)
          ⟨st.data ++ [v], true, (st.log ++ [InnerRes.err]) ++ [InnerRes.err]⟩
          st.data.length).log ++ [InnerRes.err]⟩ : HState)) := by
  have hsift := huGoS_reentrant c w (st.data.length + 1)
    ⟨st.data ++ [v], true, (st.log ++ [InnerRes.err]) ++ [InnerRes.err]⟩ st.data.length rfl
  unfold pushS
  rw [if_neg (by simp [hm])]
  dsimp only
  rw [if_neg hnb]
  rw [notifyS_reentrant_busy c w EvName.insert_start (⟨st.data, true, st.log⟩ : HState) rfl]
  rw [notifyS_reentrant_busy c w EvName.insert
    (⟨st.data ++ [v], true, st.log ++ [InnerRes.err]⟩ : HState) rfl]
  rw [notifyS_reentrant_busy c w EvName.push_done
    (huGoS c (reentrantSink c w) (st.data.length + 1)
      (⟨st.data ++ [v], true, (st.log ++ [InnerRes.err]) ++ [InnerRes.err]⟩ : HState)
      st.data.length) hsift.2.1]

theorem pushS_reentrant_run (c : Cfg) (w : Int) (st : HState) (v : Int)
    (hm : st.mutating = false) :
    (pushS c (reentrantSink c w) st v).1 = some () ∧
    (pushS c (reentrantSink c w) st v).2.data = push c st.data v ∧
    (pushS c (reentrantSink c w) st v).2.mutating = false ∧
    ∃ L, (pushS c (reentrantSink c w) st v).2.log = (st.log ++ [InnerRes.err]) ++ L := by
  by_cases hnb : st.data.length = 0
  · rw [pushS_reentrant_eq_empty c w st v hm hnb]
    refine ⟨rfl, ?_, rfl, ⟨[InnerRes.err] ++ [InnerRes.err], by simp⟩⟩
    unfold push
    rw [if_pos hnb]
  · rw [pushS_reentrant_eq c w st v hm hnb]
    obtain ⟨h1, h2, L, h3⟩ := huGoS_reentrant c w (st.data.length + 1)
      ⟨st.data ++ [v], true, (st.log ++ [InnerRes.err]) ++ [InnerRes.err]⟩ st.data.length rfl
    refine ⟨rfl, ?_, rfl, ?_⟩
    · rw [h1]
      unfold push heapifyUp
      rw [if_neg hnb]
    · refine ⟨[InnerRes.err] ++ (L ++ [InnerRes.err]), ?_⟩
      rw [h3]
      simp

/-- C8: if during an in-flight `push` the notification sink calls `push`
again, then the inner call fails with the re-entrant mutation error and
leaves the state exactly as it was (first conjunct, for any sink and any
state with the guard held — in particular each notification of the outer
push runs with the guard held), while the outer push still completes:
it returns successfully, its storage afterwards is the old storage plus
the pushed element, the guard is released, and the log records that the
sink observed the inner rejection. -/
theorem c8_reentrant_inner_rejected (c : Cfg) (st : HState) (v w : Int)
    (hm : st.mutating = false) :
    (∀ sink g, g.mutating = true → pushS c sink g w = (none, g)) ∧
    (pushS c (reentrantSink c w) st v).1 = some () ∧
    ((pushS c (reentrantSink c w) st v).2.data).Perm (v :: st.data) ∧
    (pushS c (reentrantSink c w) st v).2.mutating = false ∧
    InnerRes.err ∈ (pushS c (reentrantSink c w) st v).2.log := by
  obtain ⟨h1, h2, h3, L, h4⟩ := pushS_reentrant_run c w st v hm
  refine ⟨fun sink g h => pushS_reentrant c sink g w h, h1, ?_, h3, ?_⟩
  · rw [h2]
    exact push_perm c st.data v
  · rw [h4]
    simp

theorem c8_reentrant_inner_rejected_witness :
    (⟨[1], false, []⟩ : HState).mutating = false ∧
    ((∀ sink g, g.mutating = true → pushS cMinId sink g 7 = (none, g)) ∧
     (pushS cMinId (reentrantSink cMinId 7) ⟨[1], false, []⟩ 0).1 = some () ∧
     ((pushS cMinId (reentrantSink cMinId 7) ⟨[1], false, []⟩ 0).2.data).Perm
       (0 :: (⟨[1], false, []⟩ : HState).data) ∧
     (pushS cMinId (reentrantSink cMinId 7) ⟨[1], false, []⟩ 0).2.mutating = false ∧
     InnerRes.err ∈ (pushS cMinId (reentrantSink cMinId 7) ⟨[1], false, []⟩ 0).2.log) :=
  ⟨rfl, c8_reentrant_inner_rejected cMinId ⟨[1], false, []⟩ 0 7 rfl⟩
